import Mathlib

/-!
Verification of the scalar-encoding core of `cookies.py` (cookie value
visualisation tool): the adaptive per-character probability model
(`get_probability`), the arithmetic interval encoder (`arithmetic_encode`),
the repeat cache consulted by `encode`, and the per-file `parse` driver.

Embedding notes.  Python numbers are modelled by exact rationals `ℚ`; every
concrete value appearing in a theorem below is a small dyadic rational, where
IEEE double arithmetic is exact, so the rational computations coincide with
the Python float computations on those inputs.  Python's insertion-ordered
`dict` (and `collections.Counter`) is modelled by an association list updated
in place: `mset` replaces the value at an existing key, keeping its position,
and appends a fresh key at the end; `bump` is `Counter`'s increment-or-insert.
A raw cookie value is a `List Char`.  A `KeyError` (looking up a character
missing from the model) is modelled by `Option`: `arithmetic_encode` returns
`none` exactly where the Python code would raise.  The module-global `cache`
list, into which `encode` prepends the pair (cookie, encoded value) via
`cache.insert(0, ...)`/`cache.insert(1, ...)`, is modelled as a list of pairs
threaded through `encode`; `parse` starts each file with a fresh
`probabilities = {}` but reuses the cache it is given, as the source does.
-/

namespace Cookies

/-- A character's cumulative-probability interval `(interval_start, interval_end)`. -/
abbrev Interval : Type := ℚ × ℚ

/-- The probability model: Python's insertion-ordered dict `probabilities`. -/
abbrev Model : Type := List (Char × Interval)

/-- The global `cache` list of `cookies.py`, viewed as the list of
(cookie, encoded value) pairs it holds, most recent first. -/
abbrev Cache : Type := List (List Char × ℚ)

/-- Dict lookup `probabilities[char]` / `char in probabilities`. -/
def mlookup : Model → Char → Option Interval
  | [], _ => none
  | (k, iv) :: rest, c => if k = c then some iv else mlookup rest c

/-- Dict assignment `probabilities[char] = iv`: replaces the value at an
existing key in place, appends a fresh key at the end. -/
def mset : Model → Char → Interval → Model
  | [], c, iv => [(c, iv)]
  | (k, v) :: rest, c, iv =>
      if k = c then (c, iv) :: rest else (k, v) :: mset rest c iv

/-- One step of `collections.Counter`: increment the count of `c`, inserting
`c ↦ 1` at the end if `c` is new.  Folding `bump` over the string reproduces
`Counter(cookie)` with its first-occurrence iteration order. -/
def bump : List (Char × Nat) → Char → List (Char × Nat)
  | [], c => [(c, 1)]
  | (k, n) :: rest, c =>
      if k = c then (k, n + 1) :: rest else (k, n) :: bump rest c

/-- `Counter(cookie)`: character counts in first-occurrence order. -/
def counter (cookie : List Char) : List (Char × Nat) :=
  cookie.foldl bump []

/-- The body of the `for char, count in char_count.items()` loop of
`get_probability`: `probability = count / total_chars`,
`end = start + probability`, then either rescale the existing interval
(`new_start = start + old_start * (end - start)`,
`new_end = start + old_end * (end - start)`) or insert `(start, end)`,
and finally `start = end`. -/
def probStep (total : Nat) (acc : ℚ × Model) (cc : Char × Nat) : ℚ × Model :=
  let start := acc.1
  let probability : ℚ := (cc.2 : ℚ) / (total : ℚ)
  let e : ℚ := start + probability
  match mlookup acc.2 cc.1 with
  | some old =>
      (e, mset acc.2 cc.1 (start + old.1 * (e - start), start + old.2 * (e - start)))
  | none => (e, mset acc.2 cc.1 (start, e))

/-- `get_probability(cookie, probabilities)`: update the model from the
character counts of `cookie` and return the mutated mapping. -/
def get_probability (cookie : List Char) (probabilities : Model) : Model :=
  ((counter cookie).foldl (probStep cookie.length) ((0 : ℚ), probabilities)).2

/-- The interval-narrowing loop of `arithmetic_encode`:
`interval_start += interval_size * char_range[0]`,
`interval_size *= char_range[1] - char_range[0]`.  Returns `none` where the
Python code would raise a `KeyError` on a character missing from the model. -/
def encodeFrom (probabilities : Model) : List Char → ℚ × ℚ → Option (ℚ × ℚ)
  | [], acc => some acc
  | c :: rest, acc =>
      match mlookup probabilities c with
      | some r => encodeFrom probabilities rest (acc.1 + acc.2 * r.1, acc.2 * (r.2 - r.1))
      | none => none

/-- `arithmetic_encode(cookie, probabilities)`: narrow `[0,1]` over the
characters of `cookie` and return `(1 - (interval_start + 0.5 * interval_size)) * 10`. -/
def arithmetic_encode (cookie : List Char) (probabilities : Model) : Option ℚ :=
  (encodeFrom probabilities cookie ((0 : ℚ), (1 : ℚ))).map
    (fun acc => (1 - (acc.1 + (1 / 2 : ℚ) * acc.2)) * 10)

/-- The cache probe of `encode`: `if cache:` then `if cookie == cache[0]:
return cache[1]`.  Only the head pair of the cache list is ever consulted. -/
def cacheHit (cookie : List Char) : Cache → Option ℚ
  | [] => none
  | e :: _ => if cookie = e.1 then some e.2 else none

/-- `encode(cookie, probabilities)` together with its effect on the global
cache: on a hit return the cached value unchanged; on a miss run
`get_probability` then `arithmetic_encode`, prepend the (cookie, value) pair
to the cache (`cache.insert(0, cookie)`, `cache.insert(1, encoded_value)`),
and return the value. -/
def encode (cookie : List Char) (st : Cache × Model) : Option (ℚ × Cache × Model) :=
  match cacheHit cookie st.1 with
  | some v => some (v, st.1, st.2)
  | none =>
      let probabilities := get_probability cookie st.2
      (arithmetic_encode cookie probabilities).map
        (fun v => (v, (cookie, v) :: st.1, probabilities))

/-- The encoding loop of `parse`: encode each row's value in order, threading
the cache and the model, collecting the scalars. -/
def encodeList : List (List Char) → Cache → Model → Option (List ℚ × Cache × Model)
  | [], c, m => some ([], c, m)
  | v :: rest, c, m =>
      match encode v (c, m) with
      | some (s, c1, m1) =>
          (encodeList rest c1 m1).map (fun r => (s :: r.1, r.2.1, r.2.2))
      | none => none

/-- `parse(filename)` restricted to its encoding effect: a fresh
`probabilities = {}` for this file, but the module-global cache carried in
from whatever ran before in the same process.  Returns the scalar column and
the cache left behind for the next file. -/
def parseStream (rows : List (List Char)) (c : Cache) : Option (List ℚ × Cache) :=
  (encodeList rows c []).map (fun r => (r.1, r.2.1))

/-- The width `hi - lo` of a model entry, `0` for a missing character. -/
def span : Option Interval → ℚ
  | some iv => iv.2 - iv.1
  | none => 0

/-- Sum of the interval widths stored in the model for the distinct
characters of `s`, in their first-occurrence order. -/
def spanSum (s : List Char) (m : Model) : ℚ :=
  ((counter s).map (fun cc => span (mlookup m cc.1))).sum

/-- Partial frequency sum: the `start` cursor of `get_probability` when it
reaches the `i`-th distinct character of `cookie`. -/
def presum (cookie : List Char) (i : Nat) : ℚ :=
  ((((counter cookie).take i).map Prod.snd).sum : ℚ) / (cookie.length : ℚ)

/-- Well-formed model: every stored interval satisfies
`0 ≤ interval_start < interval_end ≤ 1`. -/
def WF (m : Model) : Prop :=
  ∀ c lo hi, mlookup m c = some (lo, hi) → 0 ≤ lo ∧ lo < hi ∧ hi ≤ 1

/-- Models reachable from the empty `probabilities = {}` by `get_probability`
updates, as performed by successive `encode` misses on one stream. -/
inductive Reachable : Model → Prop
  | nil : Reachable []
  | step (s : List Char) {m : Model} : Reachable m → Reachable (get_probability s m)

/-- The interval a character receives in its slot `[s, s + f)` of the current
update: a fresh character gets the whole slot, a known character gets its old
interval rescaled into the slot. -/
def slotValue (s f : ℚ) : Option Interval → Interval
  | some old => (s + old.1 * f, s + old.2 * f)
  | none => (s, s + f)

theorem mlookup_cons (k : Char) (iv : Interval) (rest : Model) (c : Char) :
    mlookup ((k, iv) :: rest) c = if k = c then some iv else mlookup rest c := rfl

theorem mset_nil (c : Char) (iv : Interval) : mset [] c iv = [(c, iv)] := rfl

theorem mset_cons (k : Char) (v : Interval) (rest : Model) (c : Char) (iv : Interval) :
    mset ((k, v) :: rest) c iv =
      if k = c then (c, iv) :: rest else (k, v) :: mset rest c iv := rfl

theorem bump_cons (k : Char) (n : Nat) (rest : List (Char × Nat)) (c : Char) :
    bump ((k, n) :: rest) c =
      if k = c then (k, n + 1) :: rest else (k, n) :: bump rest c := rfl

theorem mlookup_mset_self (m : Model) (c : Char) (iv : Interval) :
    mlookup (mset m c iv) c = some iv := by
  induction m with
  | nil => simp [mset_nil, mlookup_cons]
  | cons e rest ih =>
      obtain ⟨k, v⟩ := e
      by_cases h : k = c
      · simp [mset_cons, mlookup_cons, h]
      · simp [mset_cons, mlookup_cons, h, ih]

theorem mlookup_mset_ne (m : Model) (c c' : Char) (iv : Interval) (h : c' ≠ c) :
    mlookup (mset m c iv) c' = mlookup m c' := by
  induction m with
  | nil => simp [mset_nil, mlookup_cons, mlookup, Ne.symm h]
  | cons e rest ih =>
      obtain ⟨k, v⟩ := e
      by_cases hk : k = c
      · simp [mset_cons, mlookup_cons, hk, Ne.symm h]
      · simp [mset_cons, mlookup_cons, hk, ih]

theorem bump_sum (l : List (Char × Nat)) (c : Char) :
    ((bump l c).map Prod.snd).sum = (l.map Prod.snd).sum + 1 := by
  induction l with
  | nil => simp [bump]
  | cons e rest ih =>
      obtain ⟨k, n⟩ := e
      by_cases h : k = c
      · simp only [bump_cons, if_pos h, List.map_cons, List.sum_cons]
        omega
      · simp only [bump_cons, if_neg h, List.map_cons, List.sum_cons, ih]
        omega

theorem mem_bump_keys (l : List (Char × Nat)) (c d : Char) :
    d ∈ (bump l c).map Prod.fst ↔ d ∈ l.map Prod.fst ∨ d = c := by
  induction l with
  | nil => simp [bump]
  | cons e rest ih =>
      obtain ⟨k, n⟩ := e
      by_cases h : k = c
      · subst h
        rw [bump_cons, if_pos rfl]
        simp only [List.map_cons, List.mem_cons]
        tauto
      · rw [bump_cons, if_neg h]
        simp only [List.map_cons, List.mem_cons, ih]
        tauto

theorem bump_counts_pos (l : List (Char × Nat)) (c : Char)
    (h : ∀ e ∈ l, 1 ≤ e.2) : ∀ e ∈ bump l c, 1 ≤ e.2 := by
  induction l with
  | nil =>
      intro e he
      simp [bump] at he
      simp [he]
  | cons hd rest ih =>
      obtain ⟨k, n⟩ := hd
      intro e he
      by_cases hh : k = c
      · rw [bump_cons, if_pos hh] at he
        rcases List.mem_cons.mp he with he' | he'
        · simp [he']
        · exact h e (by simp [he'])
      · rw [bump_cons, if_neg hh] at he
        rcases List.mem_cons.mp he with he' | he'
        · exact he' ▸ h (k, n) (by simp)
        · exact ih (fun e' he'' => h e' (by simp [he''])) e he'

theorem bump_keys_nodup (l : List (Char × Nat)) (c : Char)
    (h : (l.map Prod.fst).Nodup) : ((bump l c).map Prod.fst).Nodup := by
  induction l with
  | nil => simp [bump]
  | cons e rest ih =>
      obtain ⟨k, n⟩ := e
      simp only [List.map_cons, List.nodup_cons] at h
      by_cases hh : k = c
      · rw [bump_cons, if_pos hh]
        simp only [List.map_cons, List.nodup_cons]
        exact h
      · rw [bump_cons, if_neg hh]
        simp only [List.map_cons, List.nodup_cons]
        refine ⟨fun hmem => ?_, ih h.2⟩
        rcases (mem_bump_keys rest c k).mp hmem with hm | hm
        · exact h.1 hm
        · exact hh hm

theorem counter_foldl_keys_mem (s : List Char) (acc : List (Char × Nat)) (d : Char) :
    d ∈ ((s.foldl bump acc).map Prod.fst) ↔ d ∈ acc.map Prod.fst ∨ d ∈ s := by
  induction s generalizing acc with
  | nil => simp
  | cons c rest ih =>
      simp only [List.foldl_cons, ih, mem_bump_keys, List.mem_cons]
      tauto

theorem counter_keys_mem (s : List Char) (d : Char) :
    d ∈ (counter s).map Prod.fst ↔ d ∈ s := by
  simpa [counter] using counter_foldl_keys_mem s [] d

theorem counter_foldl_sum (s : List Char) (acc : List (Char × Nat)) :
    (((s.foldl bump acc).map Prod.snd).sum) = (acc.map Prod.snd).sum + s.length := by
  induction s generalizing acc with
  | nil => simp
  | cons c rest ih =>
      simp only [List.foldl_cons, ih, bump_sum, List.length_cons]
      omega

theorem counter_sum (s : List Char) :
    ((counter s).map Prod.snd).sum = s.length := by
  simpa [counter] using counter_foldl_sum s []

theorem counter_foldl_counts_pos (s : List Char) (acc : List (Char × Nat))
    (h : ∀ e ∈ acc, 1 ≤ e.2) : ∀ e ∈ s.foldl bump acc, 1 ≤ e.2 := by
  induction s generalizing acc with
  | nil => exact h
  | cons c rest ih => exact ih (bump acc c) (bump_counts_pos acc c h)

theorem counter_counts_pos (s : List Char) : ∀ e ∈ counter s, 1 ≤ e.2 :=
  counter_foldl_counts_pos s [] (by simp)

theorem counter_foldl_keys_nodup (s : List Char) (acc : List (Char × Nat))
    (h : (acc.map Prod.fst).Nodup) : ((s.foldl bump acc).map Prod.fst).Nodup := by
  induction s generalizing acc with
  | nil => exact h
  | cons c rest ih => exact ih (bump acc c) (bump_keys_nodup acc c h)

theorem counter_keys_nodup (s : List Char) : ((counter s).map Prod.fst).Nodup :=
  counter_foldl_keys_nodup s [] (by simp)

theorem probStep_eq (total : Nat) (acc : ℚ × Model) (cc : Char × Nat) :
    probStep total acc cc =
      (acc.1 + (cc.2 : ℚ) / (total : ℚ),
        mset acc.2 cc.1
          (slotValue acc.1 ((cc.2 : ℚ) / (total : ℚ)) (mlookup acc.2 cc.1))) := by
  unfold probStep
  cases h : mlookup acc.2 cc.1 with
  | none => simp [h, slotValue]
  | some old => simp [h, slotValue, add_sub_cancel_left]

theorem probFold_cursor (total : Nat) (l : List (Char × Nat)) (s0 : ℚ) (m : Model) :
    (l.foldl (probStep total) (s0, m)).1 =
      s0 + (((l.map Prod.snd).sum : ℕ) : ℚ) / (total : ℚ) := by
  induction l generalizing s0 m with
  | nil => simp
  | cons cc rest ih =>
      rw [List.foldl_cons, probStep_eq, ih]
      simp only [List.map_cons, List.sum_cons]
      push_cast
      ring

theorem probFold_lookup_notmem (total : Nat) (c : Char) :
    ∀ (l : List (Char × Nat)) (s0 : ℚ) (m : Model), c ∉ l.map Prod.fst →
      mlookup (l.foldl (probStep total) (s0, m)).2 c = mlookup m c := by
  intro l
  induction l with
  | nil => intro s0 m _; rfl
  | cons cc rest ih =>
      intro s0 m hc
      simp only [List.map_cons, List.mem_cons, not_or] at hc
      rw [List.foldl_cons, probStep_eq, ih _ _ hc.2]
      exact mlookup_mset_ne _ _ _ _ hc.1

theorem probFold_lookup_idx (total : Nat) :
    ∀ (l : List (Char × Nat)), (l.map Prod.fst).Nodup →
      ∀ (s0 : ℚ) (m : Model) (i : Nat) (hi : i < l.length),
      mlookup (l.foldl (probStep total) (s0, m)).2 (l.get ⟨i, hi⟩).1 =
        some (slotValue (s0 + ((((l.take i).map Prod.snd).sum : ℕ) : ℚ) / (total : ℚ))
          (((l.get ⟨i, hi⟩).2 : ℚ) / (total : ℚ)) (mlookup m (l.get ⟨i, hi⟩).1)) := by
  intro l
  induction l with
  | nil => intro _ s0 m i hi; exact absurd hi (by simp)
  | cons cc rest ih =>
      intro hnd s0 m i hi
      simp only [List.map_cons, List.nodup_cons] at hnd
      cases i with
      | zero =>
          have hget : ((cc :: rest).get ⟨0, hi⟩) = cc := rfl
          rw [hget, List.foldl_cons, probStep_eq,
            probFold_lookup_notmem total cc.1 rest _ _ hnd.1, mlookup_mset_self]
          simp
      | succ j =>
          have hj : j < rest.length := by simpa using hi
          have hne : (rest.get ⟨j, hj⟩).1 ≠ cc.1 := by
            intro he
            exact hnd.1 (he ▸ List.mem_map_of_mem Prod.fst (rest.get_mem j hj))
          have hget : ((cc :: rest).get ⟨j + 1, hi⟩) = rest.get ⟨j, hj⟩ := rfl
          rw [hget]
          simp only [List.take_succ_cons, List.map_cons, List.sum_cons]
          rw [List.foldl_cons, probStep_eq, ih hnd.2 _ _ j hj,
            mlookup_mset_ne _ _ _ _ hne]
          refine congrArg some ?_
          congr 1
          push_cast
          ring

theorem getProb_lookup_notmem (cookie : List Char) (m : Model) (c : Char)
    (hc : c ∉ cookie) : mlookup (get_probability cookie m) c = mlookup m c := by
  unfold get_probability
  exact probFold_lookup_notmem _ c _ _ _
    (fun hmem => hc ((counter_keys_mem cookie c).mp hmem))

theorem getProb_lookup_idx (cookie : List Char) (m : Model) (i : Nat)
    (hi : i < (counter cookie).length) :
    mlookup (get_probability cookie m) ((counter cookie).get ⟨i, hi⟩).1 =
      some (slotValue (presum cookie i)
        ((((counter cookie).get ⟨i, hi⟩).2 : ℚ) / (cookie.length : ℚ))
        (mlookup m ((counter cookie).get ⟨i, hi⟩).1)) := by
  unfold get_probability
  rw [probFold_lookup_idx cookie.length (counter cookie) (counter_keys_nodup cookie)
    0 m i hi]
  simp [presum]

theorem mem_counter_get (cookie : List Char) (c : Char) (hc : c ∈ cookie) :
    ∃ i, ∃ hi : i < (counter cookie).length, ((counter cookie).get ⟨i, hi⟩).1 = c := by
  have : c ∈ (counter cookie).map Prod.fst := (counter_keys_mem cookie c).mpr hc
  obtain ⟨e, he, hec⟩ := List.mem_map.mp this
  obtain ⟨n, hn⟩ := List.mem_iff_get.mp he
  exact ⟨n.1, n.2, by rw [hn]; exact hec⟩

theorem getProb_lookup_isSome (cookie : List Char) (m : Model) (c : Char)
    (hc : c ∈ cookie) : ∃ iv, mlookup (get_probability cookie m) c = some iv := by
  obtain ⟨i, hi, hkey⟩ := mem_counter_get cookie c hc
  exact ⟨_, by rw [← hkey]; exact getProb_lookup_idx cookie m i hi⟩

theorem presum_zero (cookie : List Char) : presum cookie 0 = 0 := by
  simp [presum]

theorem presum_full (cookie : List Char) (h : cookie ≠ []) :
    presum cookie (counter cookie).length = 1 := by
  unfold presum
  rw [List.take_length, counter_sum]
  exact div_self (by exact_mod_cast (by simpa [List.length_eq_zero] using h))

theorem sum_take_le (l : List Nat) (i : Nat) : (l.take i).sum ≤ l.sum := by
  conv_rhs => rw [← List.take_append_drop i l]
  rw [List.sum_append]
  omega

theorem presum_nonneg (cookie : List Char) (i : Nat) : 0 ≤ presum cookie i :=
  div_nonneg (Nat.cast_nonneg _) (Nat.cast_nonneg _)

theorem length_pos_q (cookie : List Char) (h : cookie ≠ []) :
    (0 : ℚ) < (cookie.length : ℚ) := by
  exact_mod_cast List.length_pos.mpr h

theorem counter_get_pos (cookie : List Char) (i : Nat)
    (hi : i < (counter cookie).length) :
    1 ≤ ((counter cookie).get ⟨i, hi⟩).2 :=
  counter_counts_pos cookie _ ((counter cookie).get_mem i hi)

theorem presum_le_one (cookie : List Char) (i : Nat) (h : cookie ≠ []) :
    presum cookie i ≤ 1 := by
  unfold presum
  rw [div_le_one (length_pos_q cookie h)]
  have hle : (((counter cookie).take i).map Prod.snd).sum ≤
      ((counter cookie).map Prod.snd).sum := by
    rw [List.map_take]
    exact sum_take_le _ i
  rw [counter_sum] at hle
  exact_mod_cast hle

theorem presum_succ (cookie : List Char) (i : Nat)
    (hi : i < (counter cookie).length) :
    presum cookie (i + 1) =
      presum cookie i +
        (((counter cookie).get ⟨i, hi⟩).2 : ℚ) / (cookie.length : ℚ) := by
  unfold presum
  rw [List.map_take, List.map_take,
    List.sum_take_succ ((counter cookie).map Prod.snd) i (by simpa using hi)]
  simp only [List.getElem_map, List.get_eq_getElem]
  push_cast
  ring

theorem presum_add_freq_le_one (cookie : List Char) (i : Nat)
    (hi : i < (counter cookie).length) (h : cookie ≠ []) :
    presum cookie i +
      (((counter cookie).get ⟨i, hi⟩).2 : ℚ) / (cookie.length : ℚ) ≤ 1 := by
  rw [← presum_succ cookie i hi]
  exact presum_le_one cookie (i + 1) h

theorem freq_pos (cookie : List Char) (i : Nat)
    (hi : i < (counter cookie).length) (h : cookie ≠ []) :
    0 < (((counter cookie).get ⟨i, hi⟩).2 : ℚ) / (cookie.length : ℚ) :=
  div_pos (by exact_mod_cast counter_get_pos cookie i hi) (length_pos_q cookie h)

theorem slotValue_bounds (s f : ℚ) (old : Option Interval) (hs : 0 ≤ s)
    (hf : 0 < f) (hsf : s + f ≤ 1)
    (hold : ∀ a b, old = some (a, b) → 0 ≤ a ∧ a < b ∧ b ≤ 1) :
    0 ≤ (slotValue s f old).1 ∧ (slotValue s f old).1 < (slotValue s f old).2 ∧
      (slotValue s f old).2 ≤ 1 := by
  cases old with
  | none =>
      simp only [slotValue]
      exact ⟨hs, by linarith, hsf⟩
  | some iv =>
      obtain ⟨a, b⟩ := iv
      obtain ⟨h1, h2, h3⟩ := hold a b rfl
      simp only [slotValue]
      refine ⟨by nlinarith, by nlinarith, by nlinarith⟩

theorem getProb_WF (cookie : List Char) (m : Model) (hm : WF m) :
    WF (get_probability cookie m) := by
  intro c lo hi hlook
  by_cases hc : c ∈ cookie
  · have hne : cookie ≠ [] := by rintro rfl; simp at hc
    obtain ⟨i, hilen, hkey⟩ := mem_counter_get cookie c hc
    have hidx := getProb_lookup_idx cookie m i hilen
    rw [hkey] at hidx
    rw [hidx] at hlook
    have heq := Option.some.inj hlook
    have hb := slotValue_bounds (presum cookie i)
      ((((counter cookie).get ⟨i, hilen⟩).2 : ℚ) / (cookie.length : ℚ))
      (mlookup m c) (presum_nonneg cookie i) (freq_pos cookie i hilen hne)
      (presum_add_freq_le_one cookie i hilen hne)
      (fun a b hab => hm c a b hab)
    rw [heq] at hb
    simpa using hb
  · rw [getProb_lookup_notmem cookie m c hc] at hlook
    exact hm c lo hi hlook

theorem reachable_WF (m : Model) (hm : Reachable m) : WF m := by
  induction hm with
  | nil => intro c lo hi h; simp [mlookup] at h
  | step s _ ih => exact getProb_WF s _ ih

theorem WF_nil : WF ([] : Model) := by
  intro c lo hi h
  simp [mlookup] at h

theorem encodeFrom_bounds (mm : Model) (hm : WF mm) :
    ∀ (rest : List Char), (∀ c ∈ rest, ∃ iv, mlookup mm c = some iv) →
      ∀ a b : ℚ, 0 ≤ a → 0 ≤ b → a + b ≤ 1 →
      ∃ acc, encodeFrom mm rest (a, b) = some acc ∧
        0 ≤ acc.1 ∧ 0 ≤ acc.2 ∧ acc.1 + acc.2 ≤ 1 := by
  intro rest
  induction rest with
  | nil => intro _ a b ha hb hab; exact ⟨(a, b), rfl, ha, hb, hab⟩
  | cons c cs ih =>
      intro hmem a b ha hb hab
      obtain ⟨⟨lo, hi⟩, hlk⟩ := hmem c (by simp)
      obtain ⟨h1, h2, h3⟩ := hm c lo hi hlk
      have hstep : encodeFrom mm (c :: cs) (a, b) =
          encodeFrom mm cs (a + b * lo, b * (hi - lo)) := by
        simp [encodeFrom, hlk]
      rw [hstep]
      apply ih (fun c' hc' => hmem c' (by simp [hc']))
      · nlinarith
      · nlinarith
      · nlinarith

theorem arithmetic_encode_bounds (cookie : List Char) (mm : Model) (hm : WF mm)
    (hmem : ∀ c ∈ cookie, ∃ iv, mlookup mm c = some iv) :
    ∃ v, arithmetic_encode cookie mm = some v ∧ 0 ≤ v ∧ v ≤ 10 := by
  obtain ⟨acc, hacc, h1, h2, h3⟩ :=
    encodeFrom_bounds mm hm cookie hmem 0 1 le_rfl zero_le_one (by norm_num)
  refine ⟨(1 - (acc.1 + (1 / 2 : ℚ) * acc.2)) * 10, ?_, by nlinarith, by nlinarith⟩
  unfold arithmetic_encode
  rw [hacc]
  rfl

theorem cacheHit_cons (v : List Char) (e : List Char × ℚ) (t : Cache) :
    cacheHit v (e :: t) = if v = e.1 then some e.2 else none := rfl

theorem encode_hit (v : List Char) (c : Cache) (m : Model) (s : ℚ)
    (h : cacheHit v c = some s) : encode v (c, m) = some (s, c, m) := by
  unfold encode
  rw [h]

theorem encode_miss (v : List Char) (c : Cache) (m : Model)
    (h : cacheHit v c = none) :
    encode v (c, m) = (arithmetic_encode v (get_probability v m)).map
      (fun w => (w, (v, w) :: c, get_probability v m)) := by
  unfold encode
  rw [h]

theorem encodeList_cons (v : List Char) (rest : List (List Char)) (c : Cache)
    (m : Model) :
    encodeList (v :: rest) c m =
      match encode v (c, m) with
      | some (s, c1, m1) =>
          (encodeList rest c1 m1).map (fun r => (s :: r.1, r.2.1, r.2.2))
      | none => none := rfl

theorem map_proj_cons (x y : Option (List ℚ × Cache × Model)) (s : ℚ)
    (h : x.map (fun r => (r.1, r.2.2)) = y.map (fun r => (r.1, r.2.2))) :
    ((x.map (fun r => (s :: r.1, r.2.1, r.2.2))).map (fun r => (r.1, r.2.2))) =
      ((y.map (fun r => (s :: r.1, r.2.1, r.2.2))).map (fun r => (r.1, r.2.2))) := by
  cases x with
  | none =>
      cases y with
      | none => rfl
      | some r => simp at h
  | some r =>
      cases y with
      | none => simp at h
      | some r' =>
          simp only [Option.map_some', Option.some.injEq, Prod.mk.injEq] at h ⊢
          exact ⟨by rw [h.1], h.2⟩

theorem encodeList_cache_congr :
    ∀ (rows : List (List Char)) (e : List Char × ℚ) (t t' : Cache) (m : Model),
      (encodeList rows (e :: t) m).map (fun r => (r.1, r.2.2)) =
        (encodeList rows (e :: t') m).map (fun r => (r.1, r.2.2)) := by
  intro rows
  induction rows with
  | nil => intro e t t' m; rfl
  | cons v rest ih =>
      intro e t t' m
      by_cases hv : v = e.1
      · have h1 : encode v (e :: t, m) = some (e.2, e :: t, m) :=
          encode_hit v _ m e.2 (by simp [cacheHit_cons, hv])
        have h2 : encode v (e :: t', m) = some (e.2, e :: t', m) :=
          encode_hit v _ m e.2 (by simp [cacheHit_cons, hv])
        simp only [encodeList_cons, h1, h2]
        exact map_proj_cons _ _ e.2 (ih e t t' m)
      · have hc1 : cacheHit v (e :: t) = none := by simp [cacheHit_cons, hv]
        have hc2 : cacheHit v (e :: t') = none := by simp [cacheHit_cons, hv]
        cases hae : arithmetic_encode v (get_probability v m) with
        | none =>
            have h1 : encode v (e :: t, m) = none := by
              rw [encode_miss v _ m hc1, hae]; rfl
            have h2 : encode v (e :: t', m) = none := by
              rw [encode_miss v _ m hc2, hae]; rfl
            simp only [encodeList_cons, h1, h2]
        | some w =>
            have h1 : encode v (e :: t, m) =
                some (w, (v, w) :: e :: t, get_probability v m) := by
              rw [encode_miss v _ m hc1, hae]; rfl
            have h2 : encode v (e :: t', m) =
                some (w, (v, w) :: e :: t', get_probability v m) := by
              rw [encode_miss v _ m hc2, hae]; rfl
            simp only [encodeList_cons, h1, h2]
            exact map_proj_cons _ _ w (ih (v, w) (e :: t) (e :: t') _)

theorem encodeList_scalars_cache_congr (rows : List (List Char))
    (e : List Char × ℚ) (t t' : Cache) (m : Model) :
    (encodeList rows (e :: t) m).map (fun r => r.1) =
      (encodeList rows (e :: t') m).map (fun r => r.1) := by
  have h := congrArg (Option.map Prod.fst) (encodeList_cache_congr rows e t t' m)
  rw [Option.map_map, Option.map_map] at h
  simpa [Function.comp] using h

theorem sum_map_div (l : List (Char × Nat)) (d : ℚ) :
    (l.map (fun cc => (cc.2 : ℚ) / d)).sum = (((l.map Prod.snd).sum : ℕ) : ℚ) / d := by
  induction l with
  | nil => simp
  | cons cc rest ih =>
      simp only [List.map_cons, List.sum_cons, ih]
      push_cast
      ring

/-- Claim C3: if a raw value `v` occurs immediately after itself, the second
`encode` call hits the cache and returns exactly the scalar of the first call,
leaving the cache and the probability model of the stream unchanged (the
model is not mutated on a cache hit). -/
theorem claim_C3 (v : List Char) (c : Cache) (m : Model) (s : ℚ) (c1 : Cache)
    (m1 : Model) (h : encode v (c, m) = some (s, c1, m1)) :
    encode v (c1, m1) = some (s, c1, m1) := by
  cases hch : cacheHit v c with
  | some v0 =>
      rw [encode_hit v c m v0 hch] at h
      simp only [Option.some.injEq, Prod.mk.injEq] at h
      obtain ⟨rfl, rfl, rfl⟩ := h
      exact encode_hit v c m v0 hch
  | none =>
      rw [encode_miss v c m hch] at h
      cases hae : arithmetic_encode v (get_probability v m) with
      | none => rw [hae] at h; simp at h
      | some w =>
          rw [hae] at h
          simp only [Option.map_some', Option.some.injEq, Prod.mk.injEq] at h
          obtain ⟨rfl, rfl, rfl⟩ := h
          exact encode_hit v _ _ w (by simp [cacheHit_cons])

/-- Concrete instance of claim C3: encoding `"a"` on a fresh stream and then
`"a"` again returns the scalar `5` twice from an unchanged state. -/
theorem claim_C3_witness :
    encode ['a'] (([] : Cache), ([] : Model)) =
        some (5, [(['a'], 5)], [('a', ((0 : ℚ), (1 : ℚ)))]) ∧
      encode ['a'] ([(['a'], (5 : ℚ))], [('a', ((0 : ℚ), (1 : ℚ)))]) =
        some (5, [(['a'], 5)], [('a', ((0 : ℚ), (1 : ℚ)))]) := by
  have h1 : encode ['a'] (([] : Cache), ([] : Model)) =
      some (5, [(['a'], 5)], [('a', ((0 : ℚ), (1 : ℚ)))]) := by
    simp +decide [encodeList, encode, cacheHit, get_probability, counter, bump,
      probStep, mlookup, mset, arithmetic_encode, encodeFrom]
    norm_num
  exact ⟨h1, claim_C3 ['a'] [] [] 5 [(['a'], 5)] [('a', (0, 1))] h1⟩

/-- Claim C4: for any reachable model state and any non-empty input string,
an `encode` call that misses the cache returns a scalar in the closed
interval `[0, 10]` (the arithmetic-encoding midpoint stays inside `[0, 1]`
and the result is `(1 - midpoint) * 10`). -/
theorem claim_C4 (cookie : List Char) (cch : Cache) (m : Model)
    (hr : Reachable m) (hne : cookie ≠ []) (hmiss : cacheHit cookie cch = none) :
    ∃ v, encode cookie (cch, m) =
        some (v, (cookie, v) :: cch, get_probability cookie m) ∧
      0 ≤ v ∧ v ≤ 10 := by
  obtain ⟨v, hv, h0, h10⟩ := arithmetic_encode_bounds cookie
    (get_probability cookie m) (getProb_WF cookie m (reachable_WF m hr))
    (fun c hc => getProb_lookup_isSome cookie m c hc)
  refine ⟨v, ?_, h0, h10⟩
  rw [encode_miss cookie cch m hmiss, hv]
  rfl

/-- Concrete instance of claim C4: the first call on a fresh stream with
`"ab"` returns a scalar in `[0, 10]`. -/
theorem claim_C4_witness :
    Reachable ([] : Model) ∧ (['a', 'b'] : List Char) ≠ [] ∧
      cacheHit ['a', 'b'] ([] : Cache) = none ∧
      ∃ v, encode ['a', 'b'] (([] : Cache), ([] : Model)) =
          some (v, (['a', 'b'], v) :: [], get_probability ['a', 'b'] []) ∧
        0 ≤ v ∧ v ≤ 10 :=
  ⟨Reachable.nil, by decide, rfl,
    claim_C4 ['a', 'b'] [] [] Reachable.nil (by decide) rfl⟩

/-- Counterexample to claim C5: encoding the empty string does not reach a
division fault in the reference code; the counting loop runs zero times and
`encode` returns the scalar `5`, so the result is not a failure (`none`). -/
theorem claim_C5_counterexample :
    encode [] (([] : Cache), ([] : Model)) = some (5, [([], 5)], []) ∧
      encode [] (([] : Cache), ([] : Model)) ≠ none := by
  have h1 : encode [] (([] : Cache), ([] : Model)) = some (5, [([], 5)], []) := by
    simp +decide [encodeList, encode, cacheHit, get_probability, counter, bump,
      probStep, mlookup, mset, arithmetic_encode, encodeFrom]
    norm_num
  exact ⟨h1, by rw [h1]; simp⟩

/-- Claim C5 as amended: on a cache miss, encoding the empty string performs
no division (the `for char, count in char_count.items()` loop of
`get_probability` iterates zero times because `Counter('')` is empty), leaves
the model unchanged, and returns the scalar `5`; the reference implementation
never reaches the `count / total` division for empty input. -/
theorem claim_C5 (c : Cache) (m : Model) (hmiss : cacheHit [] c = none) :
    get_probability [] m = m ∧ encode [] (c, m) = some (5, ([], 5) :: c, m) := by
  have hgp : get_probability [] m = m := rfl
  have hae : arithmetic_encode [] m = some 5 := by
    have henc : encodeFrom m [] ((0 : ℚ), (1 : ℚ)) = some (0, 1) := rfl
    unfold arithmetic_encode
    rw [henc]
    norm_num
  refine ⟨hgp, ?_⟩
  rw [encode_miss [] c m hmiss, hgp, hae]
  rfl

/-- Concrete instance of claim C5 as amended: empty string, empty cache. -/
theorem claim_C5_witness :
    cacheHit [] ([] : Cache) = none ∧
      (get_probability [] ([] : Model) = [] ∧
        encode [] (([] : Cache), ([] : Model)) = some (5, ([], 5) :: [], [])) :=
  ⟨rfl, claim_C5 [] [] rfl⟩

/-- Counterexample to claim C6: after two `encode` misses (`"a"` then `"b"`)
the cache holds two (cookie, scalar) pairs, not at most one entry — each miss
prepends via `cache.insert` instead of overwriting a single slot. -/
theorem claim_C6_counterexample :
    encodeList [['a'], ['b']] [] [] =
      some ([5, 5], [(['b'], 5), (['a'], 5)], [('a', (0, 1)), ('b', (0, 1))]) ∧
    ([((['b'] : List Char), (5 : ℚ)), (['a'], 5)] : Cache).length = 2 := by
  refine ⟨?_, rfl⟩
  simp +decide [encodeList, encode, cacheHit, get_probability, counter, bump,
    probStep, mlookup, mset, arithmetic_encode, encodeFrom]
  norm_num

/-- Claim C6 as amended: after a miss the new (cookie, scalar) pair is
prepended to the cache, so the head of the cache is always the immediately
previous input and its scalar and the next lookup of the same value hits, but
the older pairs are retained below it: the cache is a growing history, not a
single unconditionally overwritten slot. -/
theorem claim_C6 (v : List Char) (c : Cache) (m : Model) (s : ℚ) (c1 : Cache)
    (m1 : Model) (hmiss : cacheHit v c = none)
    (henc : encode v (c, m) = some (s, c1, m1)) :
    c1 = (v, s) :: c ∧ cacheHit v c1 = some s ∧ c1.tail = c := by
  rw [encode_miss v c m hmiss] at henc
  cases hae : arithmetic_encode v (get_probability v m) with
  | none => rw [hae] at henc; simp at henc
  | some w =>
      rw [hae] at henc
      simp only [Option.map_some', Option.some.injEq, Prod.mk.injEq] at henc
      obtain ⟨rfl, rfl, rfl⟩ := henc
      exact ⟨rfl, by simp [cacheHit_cons], rfl⟩

/-- Concrete instance of claim C6 as amended: a miss on `"b"` after `"a"`
prepends to the cache, which keeps the older pair in its tail. -/
theorem claim_C6_witness :
    cacheHit ['b'] [((['a'] : List Char), (5 : ℚ))] = none ∧
      encode ['b'] ([(['a'], (5 : ℚ))], [('a', ((0 : ℚ), (1 : ℚ)))]) =
        some (5, [(['b'], 5), (['a'], 5)],
          [('a', (0, 1)), ('b', (0, 1))]) ∧
      ([(['b'], (5 : ℚ)), (['a'], 5)] : Cache) = (['b'], 5) :: [(['a'], 5)] ∧
        cacheHit ['b'] [(['b'], (5 : ℚ)), (['a'], 5)] = some 5 ∧
        ([(['b'], (5 : ℚ)), (['a'], 5)] : Cache).tail = [(['a'], 5)] := by
  have hm : cacheHit ['b'] [((['a'] : List Char), (5 : ℚ))] = none := rfl
  have h1 : encode ['b'] ([(['a'], (5 : ℚ))], [('a', ((0 : ℚ), (1 : ℚ)))]) =
      some (5, [(['b'], 5), (['a'], 5)], [('a', (0, 1)), ('b', (0, 1))]) := by
    simp +decide [encodeList, encode, cacheHit, get_probability, counter, bump,
      probStep, mlookup, mset, arithmetic_encode, encodeFrom]
    norm_num
  exact ⟨hm, h1,
    claim_C6 ['b'] [(['a'], 5)] [('a', (0, 1))] 5 [(['b'], 5), (['a'], 5)]
      [('a', (0, 1)), ('b', (0, 1))] hm h1⟩

/-- Claim C7: `get_probability` on a non-empty string iterates the string's
distinct characters in first-counted order (the order of `counter`), giving
the `i`-th distinct character the slot from `presum i` to `presum (i + 1)`
(that is, `start = presum i`, `end = start + count / total`): an existing
interval `(old_start, old_end)` is replaced by the rescaled interval
`(start + old_start * (end - start), start + old_end * (end - start))`, a new
character gets `(start, end)`, and every character not in the string keeps
its prior interval unchanged. -/
theorem claim_C7 (cookie : List Char) (m : Model) (hne : cookie ≠ []) :
    (∀ c, c ∉ cookie → mlookup (get_probability cookie m) c = mlookup m c) ∧
      (∀ i (hi : i < (counter cookie).length),
        mlookup (get_probability cookie m) ((counter cookie).get ⟨i, hi⟩).1 =
          some (match mlookup m ((counter cookie).get ⟨i, hi⟩).1 with
            | some old =>
                (presum cookie i +
                    old.1 * (presum cookie (i + 1) - presum cookie i),
                  presum cookie i +
                    old.2 * (presum cookie (i + 1) - presum cookie i))
            | none => (presum cookie i, presum cookie (i + 1)))) := by
  refine ⟨fun c hc => getProb_lookup_notmem cookie m c hc, fun i hi => ?_⟩
  rw [getProb_lookup_idx cookie m i hi]
  have hps := presum_succ cookie i hi
  cases hmk : mlookup m ((counter cookie).get ⟨i, hi⟩).1 with
  | none =>
      rw [hps]
      rfl
  | some old =>
      obtain ⟨a, b⟩ := old
      simp only [slotValue, hps]
      refine congrArg some ?_
      rw [Prod.mk.injEq]
      constructor <;> ring

/-- Concrete instance of claim C7: the first update with `"ab"` on the empty
model. -/
theorem claim_C7_witness :
    (['a', 'b'] : List Char) ≠ [] ∧
      ((∀ c, c ∉ (['a', 'b'] : List Char) →
          mlookup (get_probability ['a', 'b'] []) c = mlookup [] c) ∧
        (∀ i (hi : i < (counter ['a', 'b']).length),
          mlookup (get_probability ['a', 'b'] [])
              ((counter ['a', 'b']).get ⟨i, hi⟩).1 =
            some (match mlookup [] ((counter ['a', 'b']).get ⟨i, hi⟩).1 with
              | some old =>
                  (presum ['a', 'b'] i +
                      old.1 * (presum ['a', 'b'] (i + 1) - presum ['a', 'b'] i),
                    presum ['a', 'b'] i +
                      old.2 * (presum ['a', 'b'] (i + 1) - presum ['a', 'b'] i))
              | none => (presum ['a', 'b'] i, presum ['a', 'b'] (i + 1))))) :=
  ⟨by decide, claim_C7 ['a', 'b'] [] (by decide)⟩

/-- Counterexample to claim C1: encoding the stream `"ab"` then `"ba"`, the
second `encode` call leaves a model in which the intervals of the characters
of the just-processed string `"ba"` have spans summing to `1/2`, not `1`: the
stored rescaled intervals do not partition `[0, 1]` after every call. -/
theorem claim_C1_counterexample :
    encodeList [['a', 'b'], ['b', 'a']] [] [] =
      some ([25 / 4, 95 / 16],
        [(['b', 'a'], 95 / 16), (['a', 'b'], 25 / 4)],
        [('a', ((1 : ℚ) / 2, (3 : ℚ) / 4)), ('b', ((1 : ℚ) / 4, (1 : ℚ) / 2))]) ∧
      spanSum ['b', 'a']
          [('a', ((1 : ℚ) / 2, (3 : ℚ) / 4)), ('b', ((1 : ℚ) / 4, (1 : ℚ) / 2))] =
        1 / 2 ∧
      ((1 : ℚ) / 2) ≠ 1 := by
  refine ⟨?_, ?_, by norm_num⟩
  · simp +decide [encodeList, encode, cacheHit, get_probability, counter, bump,
      probStep, mlookup, mset, arithmetic_encode, encodeFrom]
    norm_num
  · simp +decide [spanSum, counter, bump, span, mlookup]
    norm_num

/-- Claim C1 as amended: when every character of the processed non-empty
string is new to the model (in particular on the first `encode` call of a
stream), the characters' stored intervals partition `[0, 1]` exactly — the
`i`-th distinct character receives `(presum i, presum (i + 1))`, consecutive
intervals abut, the first starts at `0`, the last ends at `1`, and the spans
sum to `1`.  After later calls the rescaled intervals need not cover
`[0, 1]`. -/
theorem claim_C1 (cookie : List Char) (m : Model) (hne : cookie ≠ [])
    (hfresh : ∀ c ∈ cookie, mlookup m c = none) :
    spanSum cookie (get_probability cookie m) = 1 ∧
      presum cookie 0 = 0 ∧
      presum cookie (counter cookie).length = 1 ∧
      (∀ i (hi : i < (counter cookie).length),
        mlookup (get_probability cookie m) ((counter cookie).get ⟨i, hi⟩).1 =
          some (presum cookie i, presum cookie (i + 1))) := by
  have hidx : ∀ i (hi : i < (counter cookie).length),
      mlookup (get_probability cookie m) ((counter cookie).get ⟨i, hi⟩).1 =
        some (presum cookie i, presum cookie (i + 1)) := by
    intro i hi
    rw [getProb_lookup_idx cookie m i hi]
    have hkey : mlookup m ((counter cookie).get ⟨i, hi⟩).1 = none :=
      hfresh _ ((counter_keys_mem cookie _).mp
        (List.mem_map_of_mem Prod.fst ((counter cookie).get_mem i hi)))
    rw [hkey, presum_succ cookie i hi]
    rfl
  refine ⟨?_, presum_zero cookie, presum_full cookie hne, hidx⟩
  unfold spanSum
  have hmap : (counter cookie).map
      (fun cc => span (mlookup (get_probability cookie m) cc.1)) =
      (counter cookie).map (fun cc => (cc.2 : ℚ) / (cookie.length : ℚ)) := by
    apply List.map_congr_left
    intro cc hcc
    obtain ⟨n, hn⟩ := List.mem_iff_get.mp hcc
    obtain ⟨i, hi⟩ := n
    rw [← hn, hidx i hi]
    simp only [span]
    rw [presum_succ cookie i hi]
    ring
  rw [hmap, sum_map_div, counter_sum]
  exact div_self (by exact_mod_cast (by simpa [List.length_eq_zero] using hne))

/-- Concrete instance of claim C1 as amended: the first call with `"ab"`. -/
theorem claim_C1_witness :
    (['a', 'b'] : List Char) ≠ [] ∧
      (∀ c ∈ (['a', 'b'] : List Char), mlookup [] c = none) ∧
      (spanSum ['a', 'b'] (get_probability ['a', 'b'] []) = 1 ∧
        presum ['a', 'b'] 0 = 0 ∧
        presum ['a', 'b'] (counter ['a', 'b']).length = 1 ∧
        (∀ i (hi : i < (counter ['a', 'b']).length),
          mlookup (get_probability ['a', 'b'] [])
              ((counter ['a', 'b']).get ⟨i, hi⟩).1 =
            some (presum ['a', 'b'] i, presum ['a', 'b'] (i + 1)))) :=
  ⟨by decide, by decide, claim_C1 ['a', 'b'] [] (by decide) (by decide)⟩

/-- Counterexample to claim C2: the repeat cache is module-global state shared
by successive `parse` calls in one worker process.  After a first stream
`["ab", "ba"]`, a second stream `["ba"]` inherits the cache, hits it, and
returns `95/16`, while a genuinely fresh stream `["ba"]` returns `25/4`: one
stream's prior values can influence another stream's scalars. -/
theorem claim_C2_counterexample :
    parseStream [['a', 'b'], ['b', 'a']] [] =
      some ([25 / 4, 95 / 16],
        [(['b', 'a'], 95 / 16), (['a', 'b'], 25 / 4)]) ∧
      parseStream [['b', 'a']]
          [((['b', 'a'] : List Char), (95 : ℚ) / 16), (['a', 'b'], 25 / 4)] =
        some ([95 / 16],
          [(['b', 'a'], 95 / 16), (['a', 'b'], 25 / 4)]) ∧
      parseStream [['b', 'a']] [] = some ([25 / 4], [(['b', 'a'], 25 / 4)]) ∧
      ((95 : ℚ) / 16) ≠ 25 / 4 := by
  refine ⟨?_, ?_, ?_, by norm_num⟩ <;>
  · simp +decide [parseStream, encodeList, encode, cacheHit, get_probability,
      counter, bump, probStep, mlookup, mset, arithmetic_encode, encodeFrom]
    try norm_num

/-- Claim C2 as amended: the encoding pipeline is a deterministic function of
the raw-value sequence (two runs from fresh state give the same scalars, as
the embedding is a pure function), and each `parse` call uses a fresh
probability model; but the repeat cache is shared module state, and a prior
stream influences a later one exactly through the cache head: whenever the
later stream's first value misses the inherited cache, its whole scalar
sequence equals the one produced from a completely fresh state. -/
theorem claim_C2 (v : List Char) (rows : List (List Char)) (stale : Cache)
    (hmiss : cacheHit v stale = none) :
    (parseStream (v :: rows) stale).map Prod.fst =
      (parseStream (v :: rows) []).map Prod.fst := by
  obtain ⟨w, hw, h0, h10⟩ := arithmetic_encode_bounds v (get_probability v [])
    (getProb_WF v [] WF_nil) (fun c hc => getProb_lookup_isSome v [] c hc)
  have h1 : encode v (stale, ([] : Model)) =
      some (w, (v, w) :: stale, get_probability v []) := by
    rw [encode_miss v stale [] hmiss, hw]; rfl
  have h2 : encode v (([] : Cache), ([] : Model)) =
      some (w, (v, w) :: ([] : Cache), get_probability v []) := by
    rw [encode_miss v [] [] rfl, hw]; rfl
  unfold parseStream
  simp only [encodeList_cons, h1, h2]
  rw [Option.map_map, Option.map_map, Option.map_map, Option.map_map]
  have hs := encodeList_scalars_cache_congr rows (v, w) stale [] (get_probability v [])
  have hs2 := congrArg (Option.map (fun l : List ℚ => w :: l)) hs
  rw [Option.map_map, Option.map_map] at hs2
  simpa [Function.comp] using hs2

/-- Concrete instance of claim C2 as amended: a second stream whose first
value misses the inherited cache produces the same scalars as from fresh
state. -/
theorem claim_C2_witness :
    cacheHit ['b', 'a'] [((['a', 'b'] : List Char), (25 : ℚ) / 4)] = none ∧
      (parseStream [['b', 'a']]
          [((['a', 'b'] : List Char), (25 : ℚ) / 4)]).map Prod.fst =
        (parseStream [['b', 'a']] []).map Prod.fst :=
  ⟨by decide, claim_C2 ['b', 'a'] [] [(['a', 'b'], 25 / 4)] (by decide)⟩

/-- Claim C8: the very first `encode` call (fresh model, empty cache) on
`"ab"` builds the model `a ↦ (0, 1/2)`, `b ↦ (1/2, 1)`, narrows the interval
to start `1/4` and size `1/4`, and returns exactly `25/4 = 6.25`. -/
theorem claim_C8 :
    get_probability ['a', 'b'] [] =
        [('a', ((0 : ℚ), (1 : ℚ) / 2)), ('b', ((1 : ℚ) / 2, (1 : ℚ)))] ∧
      encodeFrom (get_probability ['a', 'b'] []) ['a', 'b'] (0, 1) =
        some (1 / 4, 1 / 4) ∧
      encode ['a', 'b'] (([] : Cache), ([] : Model)) =
        some (25 / 4, [(['a', 'b'], 25 / 4)],
          [('a', (0, 1 / 2)), ('b', (1 / 2, 1))]) := by
  refine ⟨?_, ?_, ?_⟩ <;>
  · simp +decide [encodeList, encode, cacheHit, get_probability, counter, bump,
      probStep, mlookup, mset, arithmetic_encode, encodeFrom]
    norm_num

/-- Claim C9: every model reachable from the empty model by `get_probability`
updates is well-formed — each stored interval satisfies
`0 ≤ interval_start < interval_end ≤ 1`. -/
theorem claim_C9 (m : Model) (hr : Reachable m) :
    ∀ c lo hi, mlookup m c = some (lo, hi) → 0 ≤ lo ∧ lo < hi ∧ hi ≤ 1 :=
  reachable_WF m hr

/-- Concrete instance of claim C9: the model after a first update with
`"ab"` is well-formed. -/
theorem claim_C9_witness :
    Reachable (get_probability ['a', 'b'] []) ∧
      (∀ c lo hi, mlookup (get_probability ['a', 'b'] []) c = some (lo, hi) →
        0 ≤ lo ∧ lo < hi ∧ hi ≤ 1) :=
  ⟨Reachable.step ['a', 'b'] Reachable.nil,
    claim_C9 _ (Reachable.step ['a', 'b'] Reachable.nil)⟩

/-- Claim C10: encoding the empty string with an empty cache performs no
division and no failure: the counting loop runs zero iterations, the model is
returned unchanged, the interval stays at start `0` and size `1`, and the
scalar is exactly `(1 - (0 + 1/2 * 1)) * 10 = 5`. -/
theorem claim_C10 (m : Model) :
    get_probability [] m = m ∧
      encodeFrom m [] ((0 : ℚ), (1 : ℚ)) = some (0, 1) ∧
      encode [] (([] : Cache), m) = some (5, [([], 5)], m) := by
  have hgp : get_probability [] m = m := rfl
  have hae : arithmetic_encode [] m = some 5 := by
    have henc : encodeFrom m [] ((0 : ℚ), (1 : ℚ)) = some (0, 1) := rfl
    unfold arithmetic_encode
    rw [henc]
    norm_num
  refine ⟨hgp, rfl, ?_⟩
  rw [encode_miss [] [] m rfl, hgp, hae]
  rfl

/-- Concrete instance of claim C10: empty string on a fresh stream. -/
theorem claim_C10_witness :
    get_probability [] ([] : Model) = [] ∧
      encodeFrom ([] : Model) [] ((0 : ℚ), (1 : ℚ)) = some (0, 1) ∧
      encode [] (([] : Cache), ([] : Model)) = some (5, [([], 5)], []) :=
  claim_C10 []

end Cookies
